import Mathlib

/-!
Shallow embedding of the speciesRNN notebook (character-level species-name
model): corpus normalization, vocabulary construction, one-hot encoding of
input/target tensors, and the autoregressive sampling loops.  The neural
network itself is abstracted as a draw oracle mapping the running one-hot
sequence to the sampled vocabulary index (this bundles model.predict with
np.random.choice); everything else is translated from the notebook code.
-/

namespace SpeciesRNN

/-- A numpy 3-d array of shape (sample, time, vocab), modelled as a total
function; cells outside the allocated shape are never written and read 0. -/
def Arr : Type := Nat → Nat → Nat → Nat

/-- np.zeros. -/
def zeros : Arr := fun _ _ _ => 0

/-- Single cell assignment a[i, t, k] = 1. -/
def setOne (a : Arr) (i t k : Nat) : Arr :=
  fun i' t' k' => if i' = i ∧ t' = t ∧ k' = k then 1 else a i' t' k'

/-- One line of corpus loading: line.replace("\n", "@").lower().
str.replace with a one-character pattern acts per character, and for the
characters that occur here str.lower agrees with per-character toLower. -/
def normalizeLine (line : List Char) : List Char :=
  (line.map (fun c => if c = '\n' then '@' else c)).map Char.toLower

/-- char_list = sorted(list(char_set)): the distinct characters of the
corpus in increasing code order. -/
def charListOf (species : List (List Char)) : List Char :=
  List.insertionSort (fun a b => a ≤ b) (species.foldr (fun n acc => n ++ acc) []).dedup

/-- n_x = len(char_set). -/
def nX (species : List (List Char)) : Nat := (charListOf species).length

/-- char2idx(char) = char_map[char]; char_map sends each character to its
position in char_list. -/
def char2idx (species : List (List Char)) (c : Char) : Nat :=
  (charListOf species).indexOf c

/-- idx2char(idx) = char_list[idx] (all uses are in range). -/
def idx2char (species : List (List Char)) (idx : Nat) : Char :=
  (charListOf species).getD idx 'a'

/-- maxlen = max([len(i) - 1 for i in species]). -/
def maxlenOf (species : List (List Char)) : Nat :=
  species.foldl (fun m n => max m (n.length - 1)) 0

/-- Body of the inner encoding loop at step t:
X[i, t, char2idx(chars[t])] = 1 and Y[i, t, char2idx(chars[t + 1])] = 1. -/
def encodeStepT (c2i : Char → Nat) (i : Nat) (chars : List Char)
    (XY : Arr × Arr) (t : Nat) : Arr × Arr :=
  (setOne XY.1 i t (c2i (chars.getD t 'a')),
   setOne XY.2 i t (c2i (chars.getD (t + 1) 'a')))

/-- Inner loop: for t in range(len(chars) - 1). -/
def encodeName (c2i : Char → Nat) (i : Nat) (chars : List Char)
    (XY : Arr × Arr) : Arr × Arr :=
  (List.range (chars.length - 1)).foldl (encodeStepT c2i i chars) XY

/-- Outer loop: for i, chars in enumerate(species), starting at index i0. -/
def encodeFrom (c2i : Char → Nat) : Nat → List (List Char) → Arr × Arr → Arr × Arr
  | _, [], XY => XY
  | i0, chars :: rest, XY => encodeFrom c2i (i0 + 1) rest (encodeName c2i i0 chars XY)

/-- The input tensor X built by the encoding loops from zeros. -/
def encX (species : List (List Char)) : Arr :=
  (encodeFrom (char2idx species) 0 species (zeros, zeros)).1

/-- The target tensor Y built by the encoding loops from zeros. -/
def encY (species : List (List Char)) : Arr :=
  (encodeFrom (char2idx species) 0 species (zeros, zeros)).2

/-- Scan vocabulary positions i, i+1, ..., i+n-1 for a nonzero entry of a
row; returns the first such position. -/
def findHot (row : Nat → Nat) : Nat → Nat → Option Nat
  | _, 0 => none
  | i, n + 1 => if row i ≠ 0 then some i else findHot row (i + 1) n

/-- The one-hot index of a vocabulary row: the first k < n with row k ≠ 0. -/
def oneHotIdx (row : Nat → Nat) (n : Nat) : Option Nat := findHot row 0 n

/-- Decoder stated by the specification (not present in the notebook): map
each non-zero time-step vector of a sample's input row back to its
character through idx2char, ignoring the all-zero padding steps. -/
def decodeRowSpec (species : List (List Char)) (a : Arr) (i : Nat) : List Char :=
  (List.range (maxlenOf species)).filterMap
    (fun t => (oneHotIdx (fun k => a i t k) (nX species)).map (idx2char species))

/-- x_new = np.zeros((1, 1, n_x)); x_new[:, :, idx] = 1, as a vocabulary row. -/
def oneHotRow (k : Nat) : Nat → Nat := fun j => if j = k then 1 else 0

/-- The while True sampling loop, with fuel making it total: each pass draws
idx_sampled from the oracle on the current running sequence x, stops
returning the accumulated characters when idx2char gives '@', and otherwise
appends the character and the one-hot row.  none means the fuel ran out
before the terminator was sampled. -/
def sampleLoop (i2c : Nat → Char) (draw : List (Nat → Nat) → Nat) :
    Nat → List (Nat → Nat) → List Char → Option (List Char)
  | 0, _, _ => none
  | fuel + 1, x, generated =>
    let idx := draw x
    let c := i2c idx
    if c = '@' then some generated
    else sampleLoop i2c draw fuel (x ++ [oneHotRow idx]) (generated ++ [c])

/-- Diagnostic sampling run inside the training loop: the running sequence
starts as the single one-hot row of first_idx and generated starts as
[idx2char(first_idx)]; returns the characters joined by the final print. -/
def genDiag (species : List (List Char)) (draw : List (Nat → Nat) → Nat)
    (fuel firstIdx : Nat) : Option (List Char) :=
  sampleLoop (idx2char species) draw fuel [oneHotRow firstIdx]
    [idx2char species firstIdx]

/-- staph: the one-hot encoding of the seed string, row t being the one-hot
row of char2idx of its t-th character. -/
def staphEnc (species : List (List Char)) (pre : List Char) : List (Nat → Nat) :=
  pre.map (fun c => oneHotRow (char2idx species c))

/-- One seeded generation run: x = staph.copy(); the sampling loop runs on x
with generated starting empty, and the candidate added is the seed string
followed by the generated characters. -/
def genCandidate (species : List (List Char)) (draw : List (Nat → Nat) → Nat)
    (fuel : Nat) (pre : List Char) : Option (List Char) :=
  (sampleLoop (idx2char species) draw fuel (staphEnc species pre) []).map
    (fun g => pre ++ g)

/-- numpy ndarray.copy: a fresh array with the same contents. -/
def npCopy (x : List (Nat → Nat)) : List (Nat → Nat) := x.map (fun r j => r j)

/-- The candidates loop (for _ in range(n)): state is the staph array
together with the list of run results; each pass reads staph, copies it
into x, runs the sampling loop on x, and records seed ++ generated.  The
draw oracle takes the run number so each run may sample differently. -/
def candidatesRun (species : List (List Char))
    (draws : Nat → List (Nat → Nat) → Nat) (fuel : Nat) (pre : List Char) :
    Nat → List (Nat → Nat) × List (Option (List Char))
  | 0 => (staphEnc species pre, [])
  | n + 1 =>
    let st := candidatesRun species draws fuel pre n
    let x := npCopy st.1
    (st.1, st.2 ++ [(sampleLoop (idx2char species) (draws n) fuel x []).map
      (fun g => pre ++ g)])

/-- The corpus of the specification example, already normalized. -/
def demoCorpus : List (List Char) := ["ecoli@".data]

/-- A tiny normalized corpus used to instantiate sampler theorems. -/
def wCorpus : List (List Char) := ["ab@".data]

/-- A corpus whose first record is the degenerate name "@" (an empty input
line), used to instantiate the malformed-name theorem. -/
def zCorpus : List (List Char) := ["@".data, "ab@".data]

example : charListOf demoCorpus = ['@', 'c', 'e', 'i', 'l', 'o'] := by decide

example : encX demoCorpus 0 0 (char2idx demoCorpus 'e') = 1 := by decide

example : encY demoCorpus 0 4 (char2idx demoCorpus '@') = 1 := by decide

example : encX demoCorpus 0 5 2 = 0 := by decide

lemma foldl_setOne (i : Nat) (tgt : Nat → Nat) :
    ∀ (L : List Nat) (a : Arr) (i' t k : Nat),
      L.foldl (fun b u => setOne b i u (tgt u)) a i' t k
        = if i' = i ∧ t ∈ L ∧ k = tgt t then 1 else a i' t k
  | [], a, i', t, k => by simp
  | t0 :: L, a, i', t, k => by
    rw [List.foldl_cons, foldl_setOne i tgt L (setOne a i t0 (tgt t0)) i' t k]
    by_cases hi : i' = i
    · subst hi
      by_cases ht0 : t = t0
      · subst ht0
        by_cases hk : k = tgt t
        · simp [hk, setOne]
        · simp [hk, setOne]
      · simp only [setOne, List.mem_cons]
        simp [ht0, fun h : t0 = t => ht0 h.symm]
    · simp [hi, setOne]

lemma foldl_encodeStepT_fst (c2i : Char → Nat) (i : Nat) (chars : List Char) :
    ∀ (L : List Nat) (XY : Arr × Arr),
      (L.foldl (encodeStepT c2i i chars) XY).1
        = L.foldl (fun b u => setOne b i u (c2i (chars.getD u 'a'))) XY.1
  | [], _ => rfl
  | t0 :: L, XY => by
    rw [List.foldl_cons, List.foldl_cons]
    exact foldl_encodeStepT_fst c2i i chars L (encodeStepT c2i i chars XY t0)

lemma foldl_encodeStepT_snd (c2i : Char → Nat) (i : Nat) (chars : List Char) :
    ∀ (L : List Nat) (XY : Arr × Arr),
      (L.foldl (encodeStepT c2i i chars) XY).2
        = L.foldl (fun b u => setOne b i u (c2i (chars.getD (u + 1) 'a'))) XY.2
  | [], _ => rfl
  | t0 :: L, XY => by
    rw [List.foldl_cons, List.foldl_cons]
    exact foldl_encodeStepT_snd c2i i chars L (encodeStepT c2i i chars XY t0)

lemma encodeName_fst (c2i : Char → Nat) (i : Nat) (chars : List Char)
    (XY : Arr × Arr) (i' t k : Nat) :
    (encodeName c2i i chars XY).1 i' t k
      = if i' = i ∧ t < chars.length - 1 ∧ k = c2i (chars.getD t 'a')
        then 1 else XY.1 i' t k := by
  rw [encodeName, foldl_encodeStepT_fst, foldl_setOne]
  simp only [List.mem_range]

lemma encodeName_snd (c2i : Char → Nat) (i : Nat) (chars : List Char)
    (XY : Arr × Arr) (i' t k : Nat) :
    (encodeName c2i i chars XY).2 i' t k
      = if i' = i ∧ t < chars.length - 1 ∧ k = c2i (chars.getD (t + 1) 'a')
        then 1 else XY.2 i' t k := by
  rw [encodeName, foldl_encodeStepT_snd]
  rw [foldl_setOne i (fun u => c2i (chars.getD (u + 1) 'a')) (List.range (chars.length - 1))]
  simp only [List.mem_range]

lemma encodeFrom_untouched (c2i : Char → Nat) :
    ∀ (names : List (List Char)) (i0 : Nat) (XY : Arr × Arr) (i t k : Nat),
      i < i0 →
      (encodeFrom c2i i0 names XY).1 i t k = XY.1 i t k ∧
      (encodeFrom c2i i0 names XY).2 i t k = XY.2 i t k
  | [], _, _, _, _, _, _ => ⟨rfl, rfl⟩
  | chars :: rest, i0, XY, i, t, k, hi => by
    have ih := encodeFrom_untouched c2i rest (i0 + 1) (encodeName c2i i0 chars XY)
      i t k (Nat.lt_succ_of_lt hi)
    have hne : ¬ i = i0 := Nat.ne_of_lt hi
    refine ⟨?_, ?_⟩
    · rw [encodeFrom, ih.1, encodeName_fst]
      simp [hne]
    · rw [encodeFrom, ih.2, encodeName_snd]
      simp [hne]

lemma encodeFrom_apply (c2i : Char → Nat) :
    ∀ (names : List (List Char)) (i0 : Nat) (XY : Arr × Arr) (j t k : Nat),
      ((encodeFrom c2i i0 names XY).1 (i0 + j) t k
        = if j < names.length ∧ t < (names.getD j []).length - 1
            ∧ k = c2i ((names.getD j []).getD t 'a')
          then 1 else XY.1 (i0 + j) t k) ∧
      ((encodeFrom c2i i0 names XY).2 (i0 + j) t k
        = if j < names.length ∧ t < (names.getD j []).length - 1
            ∧ k = c2i ((names.getD j []).getD (t + 1) 'a')
          then 1 else XY.2 (i0 + j) t k)
  | [], i0, XY, j, t, k => by simp [encodeFrom]
  | chars :: rest, i0, XY, j, t, k => by
    match j with
    | 0 =>
      have hu := encodeFrom_untouched c2i rest (i0 + 1) (encodeName c2i i0 chars XY)
        i0 t k (Nat.lt_succ_self i0)
      constructor
      · rw [encodeFrom]
        simp only [Nat.add_zero]
        rw [hu.1, encodeName_fst]
        simp
      · rw [encodeFrom]
        simp only [Nat.add_zero]
        rw [hu.2, encodeName_snd]
        simp
    | j' + 1 =>
      have ih := encodeFrom_apply c2i rest (i0 + 1) (encodeName c2i i0 chars XY) j' t k
      have harr : i0 + (j' + 1) = (i0 + 1) + j' := by omega
      have hne : ¬ i0 + (j' + 1) = i0 := by omega
      constructor
      · rw [encodeFrom, harr, ih.1, ← harr, encodeName_fst]
        simp [hne, Nat.succ_lt_succ_iff]
      · rw [encodeFrom, harr, ih.2, ← harr, encodeName_snd]
        simp [hne, Nat.succ_lt_succ_iff]

lemma encX_char (s : List (List Char)) (i t k : Nat) :
    encX s i t k
      = if t < (s.getD i []).length - 1 ∧ k = char2idx s ((s.getD i []).getD t 'a')
        then 1 else 0 := by
  have h := (encodeFrom_apply (char2idx s) s 0 (zeros, zeros) i t k).1
  rw [Nat.zero_add] at h
  rw [encX, h]
  by_cases hi : i < s.length
  · simp [hi, zeros]
  · have hd : s.getD i [] = [] := List.getD_eq_default _ _ (Nat.le_of_not_lt hi)
    have hA : ¬ (i < s.length ∧ t < (s.getD i []).length - 1
        ∧ k = char2idx s ((s.getD i []).getD t 'a')) := fun hc => hi hc.1
    have hB : ¬ (t < (s.getD i []).length - 1
        ∧ k = char2idx s ((s.getD i []).getD t 'a')) := by
      rw [hd]; simp
    rw [if_neg hA, if_neg hB]
    rfl

lemma encY_char (s : List (List Char)) (i t k : Nat) :
    encY s i t k
      = if t < (s.getD i []).length - 1 ∧ k = char2idx s ((s.getD i []).getD (t + 1) 'a')
        then 1 else 0 := by
  have h := (encodeFrom_apply (char2idx s) s 0 (zeros, zeros) i t k).2
  rw [Nat.zero_add] at h
  rw [encY, h]
  by_cases hi : i < s.length
  · simp [hi, zeros]
  · have hd : s.getD i [] = [] := List.getD_eq_default _ _ (Nat.le_of_not_lt hi)
    have hA : ¬ (i < s.length ∧ t < (s.getD i []).length - 1
        ∧ k = char2idx s ((s.getD i []).getD (t + 1) 'a')) := fun hc => hi hc.1
    have hB : ¬ (t < (s.getD i []).length - 1
        ∧ k = char2idx s ((s.getD i []).getD (t + 1) 'a')) := by
      rw [hd]; simp
    rw [if_neg hA, if_neg hB]
    rfl

lemma charListOf_sorted (s : List (List Char)) :
    (charListOf s).Sorted (fun a b => a ≤ b) :=
  List.sorted_insertionSort _ _

lemma charListOf_nodup (s : List (List Char)) : (charListOf s).Nodup :=
  (List.perm_insertionSort _ _).nodup_iff.mpr (List.nodup_dedup _)

lemma mem_foldr_append {c : Char} :
    ∀ (s : List (List Char)) (name : List Char), name ∈ s → c ∈ name →
      c ∈ s.foldr (fun n acc => n ++ acc) []
  | [], _, h, _ => absurd h (List.not_mem_nil _)
  | n0 :: rest, name, hmem, hc => by
    rw [List.foldr_cons, List.mem_append]
    rcases List.mem_cons.mp hmem with h | h
    · exact Or.inl (h ▸ hc)
    · exact Or.inr (mem_foldr_append rest name h hc)

lemma mem_charListOf {c : Char} {s : List (List Char)} {name : List Char}
    (hn : name ∈ s) (hc : c ∈ name) : c ∈ charListOf s := by
  rw [charListOf, (List.perm_insertionSort _ _).mem_iff, List.mem_dedup]
  exact mem_foldr_append s name hn hc

lemma char2idx_lt {c : Char} {s : List (List Char)} (h : c ∈ charListOf s) :
    char2idx s c < nX s :=
  List.indexOf_lt_length.mpr h

lemma idx2char_char2idx {c : Char} {s : List (List Char)} (h : c ∈ charListOf s) :
    idx2char s (char2idx s c) = c := by
  rw [idx2char, char2idx, List.getD_eq_get _ _ (List.indexOf_lt_length.mpr h)]
  exact List.indexOf_get _

lemma findHot_none (row : Nat → Nat) :
    ∀ (n i : Nat), (∀ j, i ≤ j → j < i + n → row j = 0) → findHot row i n = none
  | 0, _, _ => rfl
  | n + 1, i, h => by
    rw [findHot]
    have hi : row i = 0 := h i (Nat.le_refl i) (by omega)
    rw [if_neg (by simpa using hi)]
    exact findHot_none row n (i + 1) (fun j h1 h2 => h j (by omega) (by omega))

lemma findHot_some (row : Nat → Nat) (k : Nat) (hk : row k ≠ 0)
    (huniq : ∀ j, j ≠ k → row j = 0) :
    ∀ (n i : Nat), i ≤ k → k < i + n → findHot row i n = some k
  | 0, i, h1, h2 => absurd h2 (by omega)
  | n + 1, i, h1, h2 => by
    rw [findHot]
    by_cases hik : i = k
    · rw [if_pos (by simpa using hik ▸ hk), hik]
    · rw [if_neg (by simpa using huniq i hik)]
      exact findHot_some row k hk huniq n (i + 1) (by omega) (by omega)

lemma oneHotIdx_some {row : Nat → Nat} {k n : Nat} (hlt : k < n)
    (hk : row k ≠ 0) (huniq : ∀ j, j ≠ k → row j = 0) :
    oneHotIdx row n = some k :=
  findHot_some row k hk huniq n 0 (Nat.zero_le k) (by omega)

lemma oneHotIdx_none {row : Nat → Nat} {n : Nat} (h : ∀ j, row j = 0) :
    oneHotIdx row n = none :=
  findHot_none row n 0 (fun j _ _ => h j)

lemma foldl_max_init_le :
    ∀ (s : List (List Char)) (a : Nat),
      a ≤ s.foldl (fun m n => max m (n.length - 1)) a
  | [], _ => Nat.le_refl _
  | n0 :: rest, a => by
    rw [List.foldl_cons]
    exact Nat.le_trans (Nat.le_max_left a (n0.length - 1)) (foldl_max_init_le rest _)

lemma le_maxlenOf {name : List Char} :
    ∀ (s : List (List Char)) (a : Nat), name ∈ s →
      name.length - 1 ≤ s.foldl (fun m n => max m (n.length - 1)) a
  | [], _, h => absurd h (List.not_mem_nil _)
  | n0 :: rest, a, h => by
    rw [List.foldl_cons]
    rcases List.mem_cons.mp h with h0 | h0
    · subst h0
      exact Nat.le_trans (Nat.le_max_right a (name.length - 1)) (foldl_max_init_le rest _)
    · exact le_maxlenOf rest _ h0

lemma name_maxlenOf {name : List Char} {s : List (List Char)} (h : name ∈ s) :
    name.length - 1 ≤ maxlenOf s :=
  le_maxlenOf s 0 h

lemma sampleLoop_some (i2c : Nat → Char) (draw : List (Nat → Nat) → Nat) :
    ∀ (fuel : Nat) (x : List (Nat → Nat)) (g out : List Char),
      sampleLoop i2c draw fuel x g = some out →
      ∃ rest, out = g ++ rest ∧ ∀ c ∈ rest, c ≠ '@'
  | 0, _, _, _, h => by simp [sampleLoop] at h
  | fuel + 1, x, g, out, h => by
    rw [sampleLoop] at h
    by_cases hc : i2c (draw x) = '@'
    · rw [if_pos hc] at h
      exact ⟨[], by simpa using (Option.some_inj.mp h).symm, by simp⟩
    · rw [if_neg hc] at h
      obtain ⟨rest', hout, hrest'⟩ :=
        sampleLoop_some i2c draw fuel (x ++ [oneHotRow (draw x)])
          (g ++ [i2c (draw x)]) out h
      refine ⟨i2c (draw x) :: rest', by simpa using hout, ?_⟩
      intro c hcmem
      rcases List.mem_cons.mp hcmem with h0 | h0
      · exact h0 ▸ hc
      · exact hrest' c h0

lemma sorted_min_getD_ne :
    ∀ (l : List Char), l.Sorted (fun a b => a ≤ b) → l.Nodup → '@' ∈ l →
      (∀ c ∈ l, c ≠ '@' → '@' < c) →
      ∀ i, 1 ≤ i → i < l.length → l.getD i 'a' ≠ '@'
  | [], _, _, hmem, _, _, _, _ => absurd hmem (List.not_mem_nil _)
  | a :: rest, hsort, hnodup, hmem, hmin, i, h1, h2 => by
    have ha : a = '@' := by
      by_cases h : a = '@'
      · exact h
      · exfalso
        rcases List.mem_cons.mp hmem with h0 | h0
        · exact h h0.symm
        · have hle : a ≤ '@' := List.rel_of_sorted_cons hsort _ h0
          have hlt : '@' < a := hmin a (List.mem_cons_self a rest) h
          exact absurd (lt_of_lt_of_le hlt hle) (lt_irrefl '@')
    obtain ⟨i', rfl⟩ : ∃ i', i = i' + 1 := ⟨i - 1, by omega⟩
    rw [List.getD_cons_succ]
    have hi' : i' < rest.length := by simpa using h2
    rw [List.getD_eq_get _ _ hi']
    intro hcontra
    have : '@' ∈ rest := hcontra ▸ List.get_mem rest i' hi'
    exact (List.nodup_cons.mp hnodup).1 (ha ▸ this)

lemma idx2char_ne_terminator {s : List (List Char)} {fi : Nat}
    (hmem : '@' ∈ charListOf s)
    (hmin : ∀ c ∈ charListOf s, c ≠ '@' → '@' < c)
    (h1 : 1 ≤ fi) (h2 : fi < nX s) : idx2char s fi ≠ '@' :=
  sorted_min_getD_ne (charListOf s) (charListOf_sorted s) (charListOf_nodup s)
    hmem hmin fi h1 h2

lemma sampleLoop_never_stop_none (i2c : Nat → Char)
    (draw : List (Nat → Nat) → Nat) (hnever : ∀ x, i2c (draw x) ≠ '@') :
    ∀ (fuel : Nat) (x : List (Nat → Nat)) (g : List Char),
      sampleLoop i2c draw fuel x g = none
  | 0, _, _ => rfl
  | fuel + 1, x, g => by
    simp only [sampleLoop]
    rw [if_neg (hnever x)]
    exact sampleLoop_never_stop_none i2c draw hnever fuel _ _

lemma sampleLoop_stop (i2c : Nat → Char) (draw : List (Nat → Nat) → Nat)
    (fuel : Nat) (x : List (Nat → Nat)) (g : List Char)
    (h : i2c (draw x) = '@') :
    sampleLoop i2c draw (fuel + 1) x g = some g := by
  simp only [sampleLoop]
  rw [if_pos h]

lemma sampleLoop_continue (i2c : Nat → Char) (draw : List (Nat → Nat) → Nat)
    (fuel : Nat) (x : List (Nat → Nat)) (g : List Char)
    (h : i2c (draw x) ≠ '@') :
    sampleLoop i2c draw (fuel + 1) x g
      = sampleLoop i2c draw fuel (x ++ [oneHotRow (draw x)]) (g ++ [i2c (draw x)]) := by
  simp only [sampleLoop]
  rw [if_neg h]

lemma npCopy_id (x : List (Nat → Nat)) : npCopy x = x := by
  simp [npCopy]

/-- C4: in every terminating run of either sampling loop, the terminator
character '@' never occurs in the returned string: sampling '@' breaks the
loop before the character is appended, so neither the seeded candidates nor
the diagnostic names contain it. -/
theorem sampler_no_terminator (s : List (List Char))
    (draw : List (Nat → Nat) → Nat) (fuel : Nat) :
    (∀ (pre out : List Char), '@' ∉ pre →
      genCandidate s draw fuel pre = some out → '@' ∉ out) ∧
    (∀ (fi : Nat) (out : List Char),
      '@' ∈ charListOf s → (∀ c ∈ charListOf s, c ≠ '@' → '@' < c) →
      2 ≤ fi → fi < nX s →
      genDiag s draw fuel fi = some out → '@' ∉ out) := by
  constructor
  · intro pre out hpre hrun
    rw [genCandidate] at hrun
    cases hopt : sampleLoop (idx2char s) draw fuel (staphEnc s pre) [] with
    | none => rw [hopt] at hrun; simp at hrun
    | some g =>
      rw [hopt] at hrun
      simp only [Option.map_some', Option.some_inj] at hrun
      obtain ⟨rest, hg, hrest⟩ := sampleLoop_some _ _ _ _ _ _ hopt
      simp only [List.nil_append] at hg
      intro habs
      rw [← hrun, List.mem_append] at habs
      rcases habs with h0 | h0
      · exact hpre h0
      · exact hrest '@' (hg ▸ h0) rfl
  · intro fi out hmem hmin h2 hx hrun
    have hne : idx2char s fi ≠ '@' :=
      idx2char_ne_terminator hmem hmin (by omega) hx
    obtain ⟨rest, hout, hrest⟩ := sampleLoop_some _ _ _ _ _ _ hrun
    intro habs
    rw [hout, List.singleton_append, List.mem_cons] at habs
    rcases habs with h0 | h0
    · exact hne h0.symm
    · exact hrest '@' h0 rfl

/-- C4 witness: concrete terminating runs of both loops on the corpus
["ab@"] with an oracle that samples index 0 (the terminator) at once. -/
theorem sampler_no_terminator_witness :
    '@' ∉ ("ab".data : List Char) ∧ '@' ∉ (['b'] : List Char) :=
  ⟨(sampler_no_terminator wCorpus (fun _ => 0) 1).1 "ab".data "ab".data
      (by decide) (by decide),
   (sampler_no_terminator wCorpus (fun _ => 0) 1).2 2 ['b']
      (by decide) (by decide) (by decide) (by decide) (by decide)⟩

/-- C5: every terminating run of the seeded sampler returns a candidate that
starts with exactly the seed's characters, and everything after them is the
output of the sampling loop on the seed's one-hot encoding. -/
theorem sampler_seed_preserved (s : List (List Char))
    (draw : List (Nat → Nat) → Nat) (fuel : Nat) (pre out : List Char)
    (h : genCandidate s draw fuel pre = some out) :
    out.take pre.length = pre ∧
    sampleLoop (idx2char s) draw fuel (staphEnc s pre) []
      = some (out.drop pre.length) := by
  rw [genCandidate] at h
  cases hopt : sampleLoop (idx2char s) draw fuel (staphEnc s pre) [] with
  | none => rw [hopt] at h; simp at h
  | some g =>
    rw [hopt] at h
    simp only [Option.map_some', Option.some_inj] at h
    subst h
    refine ⟨List.take_left pre g, ?_⟩
    rw [List.drop_left]

/-- C5 witness: the seed "ab" on the corpus ["ab@"], oracle drawing the
terminator immediately. -/
theorem sampler_seed_preserved_witness :
    ("ab".data : List Char).take ("ab".data : List Char).length = "ab".data ∧
    sampleLoop (idx2char wCorpus) (fun _ => 0) 1 (staphEnc wCorpus "ab".data) []
      = some (("ab".data : List Char).drop ("ab".data : List Char).length) :=
  sampler_seed_preserved wCorpus (fun _ => 0) 1 "ab".data "ab".data (by decide)

/-- C8: the diagnostic sampler's running sequence starts with one character,
idx2char(first_idx) with 2 ≤ first_idx < n_x; since the sorted character
list of the corpus has '@' at index 0, the first character of every
terminating unseeded run is idx2char(first_idx) and is never '@'. -/
theorem diag_first_char (s : List (List Char))
    (draw : List (Nat → Nat) → Nat) (fuel fi : Nat) (out : List Char)
    (hmem : '@' ∈ charListOf s)
    (hmin : ∀ c ∈ charListOf s, c ≠ '@' → '@' < c)
    (h2 : 2 ≤ fi) (hx : fi < nX s)
    (hrun : genDiag s draw fuel fi = some out) :
    out.head? = some (idx2char s fi) ∧ idx2char s fi ≠ '@' := by
  have hne : idx2char s fi ≠ '@' :=
    idx2char_ne_terminator hmem hmin (by omega) hx
  obtain ⟨rest, hout, -⟩ := sampleLoop_some _ _ _ _ _ _ hrun
  subst hout
  exact ⟨rfl, hne⟩

/-- C8 witness: corpus ["ab@"], first_idx = 2, oracle drawing the
terminator immediately: the generated name is "b". -/
theorem diag_first_char_witness :
    (['b'] : List Char).head? = some (idx2char wCorpus 2) ∧
    idx2char wCorpus 2 ≠ '@' :=
  diag_first_char wCorpus (fun _ => 0) 1 2 ['b']
    (by decide) (by decide) (by decide) (by decide) (by decide)

/-- C10: the candidates loop copies the seed's one-hot array into x on each
pass, so the shared staph array is the same after any number of runs and
every run's sampling loop starts from that identical encoding. -/
theorem candidates_frame (s : List (List Char))
    (draws : Nat → List (Nat → Nat) → Nat) (fuel : Nat) (pre : List Char) :
    ∀ n : Nat,
      (candidatesRun s draws fuel pre n).1 = staphEnc s pre ∧
      (candidatesRun s draws fuel pre n).2
        = (List.range n).map (fun r => genCandidate s (draws r) fuel pre)
  | 0 => ⟨rfl, rfl⟩
  | n + 1 => by
    have ih := candidates_frame s draws fuel pre n
    constructor
    · simp only [candidatesRun]
      exact ih.1
    · simp only [candidatesRun, List.range_succ, List.map_append, List.map_cons,
        List.map_nil]
      rw [ih.2, npCopy_id, ih.1]
      rfl

lemma filterMap_eq_map_of {α β : Type} (f : α → Option β) (g : α → β) :
    ∀ (L : List α), (∀ a ∈ L, f a = some (g a)) → L.filterMap f = L.map g
  | [], _ => rfl
  | a :: L, h => by
    have hL := filterMap_eq_map_of f g L (fun b hb => h b (List.mem_cons_of_mem a hb))
    simp [List.filterMap_cons, h a (List.mem_cons_self a L), hL]

lemma filterMap_eq_nil_of {α β : Type} (f : α → Option β) :
    ∀ (L : List α), (∀ a ∈ L, f a = none) → L.filterMap f = []
  | [], _ => rfl
  | a :: L, h => by
    have hL := filterMap_eq_nil_of f L (fun b hb => h b (List.mem_cons_of_mem a hb))
    simp [List.filterMap_cons, h a (List.mem_cons_self a L), hL]

lemma range_map_getD_dropLast :
    ∀ (l : List Char),
      (List.range (l.length - 1)).map (fun t => l.getD t 'a') = l.dropLast
  | [] => rfl
  | [_] => rfl
  | a :: b :: tl => by
    have ih := range_map_getD_dropLast (b :: tl)
    have hlen : (a :: b :: tl).length - 1 = ((b :: tl).length - 1) + 1 := by
      simp [List.length_cons]
    rw [hlen, List.range_succ_eq_map, List.map_cons, List.map_map,
      List.dropLast_cons₂]
    have hmap : List.map ((fun t => (a :: b :: tl).getD t 'a') ∘ Nat.succ)
        (List.range ((b :: tl).length - 1))
        = List.map (fun t => (b :: tl).getD t 'a')
            (List.range ((b :: tl).length - 1)) :=
      List.map_congr_left (fun t _ => rfl)
    rw [hmap, ih]
    rfl

/-- C1: encoder contract: for sample i and step t < length(name_i) - 1, the
input row X[i,t,:] is one-hot for character t of name_i and the target row
Y[i,t,:] is one-hot for character t+1; on the padding region
length(name_i) - 1 <= t < maxlen both rows are all-zero. -/
theorem encoder_contract (s : List (List Char)) (i : Nat) (h : i < s.length)
    (t k : Nat) :
    (t < (s.getD i []).length - 1 →
      encX s i t k = (if k = char2idx s ((s.getD i []).getD t 'a') then 1 else 0) ∧
      encY s i t k
        = (if k = char2idx s ((s.getD i []).getD (t + 1) 'a') then 1 else 0)) ∧
    ((s.getD i []).length - 1 ≤ t → t < maxlenOf s →
      encX s i t k = 0 ∧ encY s i t k = 0) := by
  constructor
  · intro ht
    rw [encX_char, encY_char]
    constructor
    · by_cases hk : k = char2idx s ((s.getD i []).getD t 'a')
      · rw [if_pos ⟨ht, hk⟩, if_pos hk]
      · rw [if_neg (fun hc => hk hc.2), if_neg hk]
    · by_cases hk : k = char2idx s ((s.getD i []).getD (t + 1) 'a')
      · rw [if_pos ⟨ht, hk⟩, if_pos hk]
      · rw [if_neg (fun hc => hk hc.2), if_neg hk]
  · intro ht _
    rw [encX_char, encY_char]
    constructor
    · rw [if_neg]
      rintro ⟨hlt, -⟩
      omega
    · rw [if_neg]
      rintro ⟨hlt, -⟩
      omega

/-- C1 witness: the specification's example corpus ["ecoli@"] at the stated
positions, and a padding position of the corpus ["@", "ab@"]. -/
theorem encoder_contract_witness :
    encX demoCorpus 0 0 (char2idx demoCorpus 'e') = 1 ∧
    encY demoCorpus 0 0 (char2idx demoCorpus 'c') = 1 ∧
    encX demoCorpus 0 4 (char2idx demoCorpus 'i') = 1 ∧
    encY demoCorpus 0 4 (char2idx demoCorpus '@') = 1 ∧
    encX zCorpus 0 1 0 = 0 ∧ encY zCorpus 0 1 0 = 0 := by
  refine ⟨?_, ?_, ?_, ?_, ?_, ?_⟩
  · rw [((encoder_contract demoCorpus 0 (by decide) 0
      (char2idx demoCorpus 'e')).1 (by decide)).1]
    decide
  · rw [((encoder_contract demoCorpus 0 (by decide) 0
      (char2idx demoCorpus 'c')).1 (by decide)).2]
    decide
  · rw [((encoder_contract demoCorpus 0 (by decide) 4
      (char2idx demoCorpus 'i')).1 (by decide)).1]
    decide
  · rw [((encoder_contract demoCorpus 0 (by decide) 4
      (char2idx demoCorpus '@')).1 (by decide)).2]
    decide
  · exact ((encoder_contract zCorpus 0 (by decide) 1 0).2 (by decide) (by decide)).1
  · exact ((encoder_contract zCorpus 0 (by decide) 1 0).2 (by decide) (by decide)).2

/-- C9: the encoder is total and raises nothing; a malformed name of length
at most 1 makes range(len - 1) empty, so its whole input and target rows
stay all-zero. -/
theorem encoder_malformed_zero (s : List (List Char)) (i : Nat)
    (h : i < s.length) (hlen : (s.getD i []).length ≤ 1) (t k : Nat) :
    encX s i t k = 0 ∧ encY s i t k = 0 := by
  rw [encX_char, encY_char]
  constructor
  · rw [if_neg]
    rintro ⟨hlt, -⟩
    omega
  · rw [if_neg]
    rintro ⟨hlt, -⟩
    omega

/-- C9 witness: the degenerate record "@" of the corpus ["@", "ab@"]. -/
theorem encoder_malformed_zero_witness :
    encX zCorpus 0 0 0 = 0 ∧ encY zCorpus 0 0 0 = 0 :=
  encoder_malformed_zero zCorpus 0 (by decide) (by decide) 0 0

/-- C2 counterexample: on the corpus ["ecoli@"], step t = 4 is within the
name's true length minus one, yet the target row at t = 4 is one-hot (for
'@') while the input row at t + 1 = 5 is all-zero padding, so the claimed
one-hot index equality fails at the last valid step. -/
theorem shift_invariant_cex :
    4 < (demoCorpus.getD 0 []).length - 1 ∧
    oneHotIdx (fun k => encY demoCorpus 0 4 k) (nX demoCorpus)
      ≠ oneHotIdx (fun k => encX demoCorpus 0 5 k) (nX demoCorpus) := by
  decide

/-- C2 amended: the one-hot index of target[i,t,:] equals the one-hot index
of input[i,t+1,:] for every step t with t + 1 < length(name_i) - 1; at the
last valid step t = length(name_i) - 2 the input row t+1 is zero padding and
the equality fails. -/
theorem shift_invariant_amended (s : List (List Char)) (i : Nat)
    (h : i < s.length) (t : Nat)
    (ht : t + 1 < (s.getD i []).length - 1) :
    oneHotIdx (fun k => encY s i t k) (nX s)
      = oneHotIdx (fun k => encX s i (t + 1) k) (nX s) := by
  have hname : s.getD i [] ∈ s := by
    rw [List.getD_eq_get _ _ h]
    exact List.get_mem s i h
  have hchar : (s.getD i []).getD (t + 1) 'a' ∈ s.getD i [] := by
    have hlt : t + 1 < (s.getD i []).length := by omega
    rw [List.getD_eq_get _ _ hlt]
    exact List.get_mem _ _ _
  have hmemc := mem_charListOf hname hchar
  have hY : oneHotIdx (fun k => encY s i t k) (nX s)
      = some (char2idx s ((s.getD i []).getD (t + 1) 'a')) := by
    apply oneHotIdx_some (char2idx_lt hmemc)
    · show encY s i t _ ≠ 0
      rw [encY_char, if_pos ⟨by omega, rfl⟩]
      exact one_ne_zero
    · intro j hj
      show encY s i t j = 0
      rw [encY_char, if_neg]
      rintro ⟨-, hjk⟩
      exact hj hjk
  have hX : oneHotIdx (fun k => encX s i (t + 1) k) (nX s)
      = some (char2idx s ((s.getD i []).getD (t + 1) 'a')) := by
    apply oneHotIdx_some (char2idx_lt hmemc)
    · show encX s i (t + 1) _ ≠ 0
      rw [encX_char, if_pos ⟨ht, rfl⟩]
      exact one_ne_zero
    · intro j hj
      show encX s i (t + 1) j = 0
      rw [encX_char, if_neg]
      rintro ⟨-, hjk⟩
      exact hj hjk
  rw [hY, hX]

/-- C2 amended witness: corpus ["ecoli@"], t = 0: the target one-hot index
at step 0 equals the input one-hot index at step 1. -/
theorem shift_invariant_amended_witness :
    oneHotIdx (fun k => encY demoCorpus 0 0 k) (nX demoCorpus)
      = oneHotIdx (fun k => encX demoCorpus 0 1 k) (nX demoCorpus) :=
  shift_invariant_amended demoCorpus 0 (by decide) 0 (by decide)

/-- C3 counterexample: decoding the encoded input row of "ecoli@" yields
"ecoli", not the original record "ecoli@": the final terminator character is
never written to the input tensor. -/
theorem roundtrip_cex :
    decodeRowSpec demoCorpus (encX demoCorpus) 0 ≠ demoCorpus.getD 0 [] := by
  decide

/-- C3 amended: decoding the one-hot encoded input row of name i (mapping
non-zero steps through idx2char and dropping padding) reproduces the name
with its last character (the terminator) removed. -/
theorem roundtrip_amended (s : List (List Char)) (i : Nat)
    (h : i < s.length) :
    decodeRowSpec s (encX s) i = (s.getD i []).dropLast := by
  have hname : s.getD i [] ∈ s := by
    rw [List.getD_eq_get _ _ h]
    exact List.get_mem s i h
  have hmax : (s.getD i []).length - 1 ≤ maxlenOf s := name_maxlenOf hname
  rw [decodeRowSpec]
  have hsplit : maxlenOf s
      = ((s.getD i []).length - 1) + (maxlenOf s - ((s.getD i []).length - 1)) := by
    omega
  rw [hsplit, List.range_add, List.filterMap_append]
  have h1 : (List.range ((s.getD i []).length - 1)).filterMap
      (fun t => (oneHotIdx (fun k => encX s i t k) (nX s)).map (idx2char s))
      = (List.range ((s.getD i []).length - 1)).map
          (fun t => (s.getD i []).getD t 'a') := by
    apply filterMap_eq_map_of
    intro t htmem
    rw [List.mem_range] at htmem
    have hchar : (s.getD i []).getD t 'a' ∈ s.getD i [] := by
      have hlt : t < (s.getD i []).length := by omega
      rw [List.getD_eq_get _ _ hlt]
      exact List.get_mem _ _ _
    have hmemc := mem_charListOf hname hchar
    have hone : oneHotIdx (fun k => encX s i t k) (nX s)
        = some (char2idx s ((s.getD i []).getD t 'a')) := by
      apply oneHotIdx_some (char2idx_lt hmemc)
      · show encX s i t _ ≠ 0
        rw [encX_char, if_pos ⟨htmem, rfl⟩]
        exact one_ne_zero
      · intro j hj
        show encX s i t j = 0
        rw [encX_char, if_neg]
        rintro ⟨-, hjk⟩
        exact hj hjk
    rw [hone, Option.map_some', idx2char_char2idx hmemc]
  have h2 : ((List.range (maxlenOf s - ((s.getD i []).length - 1))).map
      (((s.getD i []).length - 1) + ·)).filterMap
      (fun t => (oneHotIdx (fun k => encX s i t k) (nX s)).map (idx2char s))
      = [] := by
    apply filterMap_eq_nil_of
    intro t htmem
    rw [List.mem_map] at htmem
    obtain ⟨u, -, rfl⟩ := htmem
    have hzero : ∀ j, encX s i ((s.getD i []).length - 1 + u) j = 0 := by
      intro j
      rw [encX_char, if_neg]
      rintro ⟨hlt, -⟩
      omega
    rw [oneHotIdx_none hzero]
    rfl
  rw [h1, h2, range_map_getD_dropLast, List.append_nil]

/-- C3 amended witness: decoding the input row of "ecoli@" yields "ecoli". -/
theorem roundtrip_amended_witness :
    decodeRowSpec demoCorpus (encX demoCorpus) 0 = "ecoli".data := by
  rw [roundtrip_amended demoCorpus 0 (by decide)]
  decide

/-- C7 counterexample: a final input line "Abc" with no trailing newline is
stored as "abc" by line.replace("\n", "@").lower(): no terminator is
appended, contradicting the claim for such a line. -/
theorem normalize_cex :
    normalizeLine "Abc".data ≠ "Abc".data.map Char.toLower ++ ['@'] := by
  decide

/-- C7 amended: a line that ends in a newline is stored as its body
lowercased with the terminator '@' appended (the newline is replaced); a
final line with no newline at all is stored merely lowercased, without a
terminator. -/
theorem normalize_terminator_amended (body : List Char) (h : '\n' ∉ body) :
    normalizeLine (body ++ ['\n']) = body.map Char.toLower ++ ['@'] ∧
    normalizeLine body = body.map Char.toLower := by
  have hrepl : body.map (fun c => if c = '\n' then '@' else c) = body.map id :=
    List.map_congr_left (fun a ha => if_neg (by intro e; exact h (e ▸ ha)))
  rw [List.map_id] at hrepl
  constructor
  · rw [normalizeLine, List.map_append, hrepl]
    have hnl : (['\n'] : List Char).map (fun c => if c = '\n' then '@' else c)
        = ['@'] := by decide
    rw [hnl, List.map_append]
    have hat : (['@'] : List Char).map Char.toLower = ['@'] := by decide
    rw [hat]
  · rw [normalizeLine, hrepl]

/-- C7 amended witness: the line "Ab" with and without a trailing newline. -/
theorem normalize_terminator_amended_witness :
    normalizeLine ("Ab".data ++ ['\n']) = "Ab".data.map Char.toLower ++ ['@'] ∧
    normalizeLine "Ab".data = "Ab".data.map Char.toLower :=
  normalize_terminator_amended "Ab".data (by decide)

end SpeciesRNN
